import Mathlib

/-!
Verification of the kaspad address-encoding layer (checksummed base-32
addresses over GF(32)) and of the p2p headers handler.

The address codec (`bech32` and `address` in the `util` package) is embedded
shallowly: byte sequences are `List Nat` with entries below 256, 5-bit symbol
sequences are `List Nat` with entries below 32, and text is `String` /
`List Char`.  The repository ships the codec's test suite
(`src/util/address_test.go`), whose concrete vectors pin the algorithm
bit-for-bit; the codec functions themselves are modelled from the
specification and checked against those vectors.
-/

set_option maxRecDepth 4000

namespace KaspadAddr

/-! ### Bit-sequence utilities

`bitsToNat` reads a most-significant-bit-first list of bits as a number;
`natToBits w n` renders the low `w` bits of `n`, most significant first. -/

def bitsToNat (bits : List Bool) : Nat :=
  bits.foldl (fun acc b => 2 * acc + b.toNat) 0

def natToBits : Nat → Nat → List Bool
  | 0, _ => []
  | w + 1, n => natToBits w (n / 2) ++ [decide (n % 2 = 1)]

theorem bitsToNat_acc (l : List Bool) :
    ∀ a : Nat, l.foldl (fun acc b => 2 * acc + b.toNat) a
      = a * 2 ^ l.length + bitsToNat l := by
  induction l with
  | nil => intro a; simp [bitsToNat]
  | cons b t ih =>
      intro a
      have h1 : (b :: t).foldl (fun acc b => 2 * acc + b.toNat) a
          = t.foldl (fun acc b => 2 * acc + b.toNat) (2 * a + b.toNat) := rfl
      have h2 : bitsToNat (b :: t)
          = t.foldl (fun acc b => 2 * acc + b.toNat) (2 * 0 + b.toNat) := rfl
      rw [h1, h2, ih (2 * a + b.toNat), ih (2 * 0 + b.toNat)]
      simp only [List.length_cons, Nat.pow_succ]
      ring

theorem bitsToNat_cons (b : Bool) (t : List Bool) :
    bitsToNat (b :: t) = b.toNat * 2 ^ t.length + bitsToNat t := by
  simp only [bitsToNat, List.foldl_cons]
  rw [bitsToNat_acc]
  simp [bitsToNat]

theorem bitsToNat_append (l₁ l₂ : List Bool) :
    bitsToNat (l₁ ++ l₂) = bitsToNat l₁ * 2 ^ l₂.length + bitsToNat l₂ := by
  simp only [bitsToNat, List.foldl_append]
  rw [bitsToNat_acc]
  rfl

theorem bitsToNat_lt (l : List Bool) : bitsToNat l < 2 ^ l.length := by
  induction l with
  | nil => simp [bitsToNat]
  | cons b t ih =>
      rw [bitsToNat_cons]
      have hb : b.toNat ≤ 1 := by cases b <;> simp
      have h2 : (0:Nat) < 2 ^ t.length := Nat.pos_pow_of_pos _ (by omega)
      calc b.toNat * 2 ^ t.length + bitsToNat t
          ≤ 1 * 2 ^ t.length + bitsToNat t := by
            exact Nat.add_le_add_right (Nat.mul_le_mul_right _ hb) _
        _ < 2 ^ t.length + 2 ^ t.length := by omega
        _ = 2 ^ (b :: t).length := by
            simp [List.length_cons, Nat.pow_succ]; ring

theorem natToBits_length (w n : Nat) : (natToBits w n).length = w := by
  induction w generalizing n with
  | zero => rfl
  | succ w ih => simp [natToBits, ih]

theorem bitsToNat_natToBits (w n : Nat) :
    bitsToNat (natToBits w n) = n % 2 ^ w := by
  induction w generalizing n with
  | zero => simp [natToBits, bitsToNat, Nat.mod_one]
  | succ w ih =>
      rw [natToBits, bitsToNat_append, ih]
      have hb : bitsToNat [decide (n % 2 = 1)] = n % 2 := by
        have := Nat.mod_two_eq_zero_or_one n
        rcases this with h | h <;> simp [h, bitsToNat]
      rw [hb]
      have hmul : (2:Nat) ^ (w + 1) = 2 * 2 ^ w := by
        rw [Nat.pow_succ]; ring
      rw [hmul, Nat.mod_mul]
      simp only [List.length_singleton, Nat.pow_one]
      omega

theorem natToBits_bitsToNat (w : Nat) (l : List Bool) (h : l.length = w) :
    natToBits w (bitsToNat l) = l := by
  induction w generalizing l with
  | zero =>
      cases l with
      | nil => rfl
      | cons b t => simp at h
  | succ w ih =>
      rcases List.eq_nil_or_concat l with rfl | ⟨t, b, rfl⟩
      · simp at h
      · simp only [List.concat_eq_append] at *
        have hlen : t.length = w := by
          simp [List.length_append] at h; omega
        have hx : bitsToNat (t ++ [b]) = 2 * bitsToNat t + b.toNat := by
          rw [bitsToNat_append]
          simp [bitsToNat_cons, bitsToNat]
          ring
        have hb : b.toNat ≤ 1 := by cases b <;> simp
        rw [natToBits, hx]
        have hdiv : (2 * bitsToNat t + b.toNat) / 2 = bitsToNat t := by omega
        have hmod : (2 * bitsToNat t + b.toNat) % 2 = b.toNat := by omega
        rw [hdiv, hmod, ih t hlen]
        have : decide (b.toNat = 1) = b := by cases b <;> simp
        rw [this]

/-! ### 8-bit / 5-bit regrouping

Modelled from the spec: `pack8to5` re-groups a byte sequence into 5-bit
symbols, most-significant-bit first, zero-padding the final partial group;
`unpack5to8` reverses this and fails (returns `none`, the `PaddingError`
case) if the trailing padding bits are non-zero or the padding length is
inconsistent (5 or more leftover bits). -/

def chunkPad5 : List Bool → List Nat
  | [] => []
  | [a] => [bitsToNat [a, false, false, false, false]]
  | [a, b] => [bitsToNat [a, b, false, false, false]]
  | [a, b, c] => [bitsToNat [a, b, c, false, false]]
  | [a, b, c, d] => [bitsToNat [a, b, c, d, false]]
  | a :: b :: c :: d :: e :: rest => bitsToNat [a, b, c, d, e] :: chunkPad5 rest

def chunk8 : List Bool → List Nat
  | a :: b :: c :: d :: e :: f :: g :: h :: rest =>
      bitsToNat [a, b, c, d, e, f, g, h] :: chunk8 rest
  | _ => []

def pack8to5 (data : List Nat) : List Nat :=
  chunkPad5 (List.flatten (data.map (natToBits 8)))

def unpack5to8 (groups : List Nat) : Option (List Nat) :=
  if 5 ≤ (List.flatten (groups.map (natToBits 5))).length % 8 then none
  else if ((List.flatten (groups.map (natToBits 5))).drop
      ((List.flatten (groups.map (natToBits 5))).length
        - (List.flatten (groups.map (natToBits 5))).length % 8)).any id
    then none
  else some (chunk8 (List.flatten (groups.map (natToBits 5))))

theorem exists_five {l : List Bool} (h : l.length = 5) :
    ∃ a b c d e, l = [a, b, c, d, e] := by
  rcases l with _ | ⟨a, _ | ⟨b, _ | ⟨c, _ | ⟨d, _ | ⟨e, _ | ⟨f, t⟩⟩⟩⟩⟩⟩ <;>
    simp at h
  exact ⟨a, b, c, d, e, rfl⟩

theorem exists_eight {l : List Bool} (h : l.length = 8) :
    ∃ a b c d e f g h, l = [a, b, c, d, e, f, g, h] := by
  rcases l with _ | ⟨a, _ | ⟨b, _ | ⟨c, _ | ⟨d, _ | ⟨e, _ | ⟨f, _ | ⟨g, _ |
    ⟨h8, _ | ⟨i, t⟩⟩⟩⟩⟩⟩⟩⟩⟩ <;> simp at h
  exact ⟨a, b, c, d, e, f, g, h8, rfl⟩

theorem chunkPad5_cons5 (a b c d e : Bool) (rest : List Bool) :
    chunkPad5 (a :: b :: c :: d :: e :: rest)
      = bitsToNat [a, b, c, d, e] :: chunkPad5 rest := rfl

theorem chunkPad5_append5 {l : List Bool} (h : l.length = 5) (rest : List Bool) :
    chunkPad5 (l ++ rest) = bitsToNat l :: chunkPad5 rest := by
  obtain ⟨a, b, c, d, e, rfl⟩ := exists_five h
  rfl

theorem chunk8_append8 {l : List Bool} (h : l.length = 8) (rest : List Bool) :
    chunk8 (l ++ rest) = bitsToNat l :: chunk8 rest := by
  obtain ⟨a, b, c, d, e, f, g, h8, rfl⟩ := exists_eight h
  rfl

theorem chunk8_short {l : List Bool} (h : l.length < 8) : chunk8 l = [] := by
  rcases l with _ | ⟨a, _ | ⟨b, _ | ⟨c, _ | ⟨d, _ | ⟨e, _ | ⟨f, _ | ⟨g, _ |
    ⟨h8, t⟩⟩⟩⟩⟩⟩⟩⟩
  all_goals try rfl
  simp only [List.length_cons] at h
  omega

theorem chunkPad5_lt : ∀ (l : List Bool), ∀ x ∈ chunkPad5 l, x < 32 := by
  intro l
  induction l using chunkPad5.induct with
  | case1 => intro x hx; simp [chunkPad5] at hx
  | case2 a => intro x hx
               simp [chunkPad5] at hx
               subst hx; exact bitsToNat_lt [a, false, false, false, false]
  | case3 a b => intro x hx
                 simp [chunkPad5] at hx
                 subst hx; exact bitsToNat_lt [a, b, false, false, false]
  | case4 a b c => intro x hx
                   simp [chunkPad5] at hx
                   subst hx; exact bitsToNat_lt [a, b, c, false, false]
  | case5 a b c d => intro x hx
                     simp [chunkPad5] at hx
                     subst hx; exact bitsToNat_lt [a, b, c, d, false]
  | case6 a b c d e rest ih =>
      intro x hx
      rw [chunkPad5_cons5] at hx
      rcases List.mem_cons.mp hx with rfl | hx
      · exact bitsToNat_lt [a, b, c, d, e]
      · exact ih x hx

theorem join5_chunkPad5 (l : List Bool) :
    List.flatten ((chunkPad5 l).map (natToBits 5))
      = l ++ List.replicate ((5 - l.length % 5) % 5) false := by
  induction l using chunkPad5.induct with
  | case1 => rfl
  | case2 a =>
      simp only [chunkPad5, List.map_cons, List.map_nil, List.flatten_cons,
        List.flatten_nil]
      rw [natToBits_bitsToNat 5 [a, false, false, false, false] rfl]
      rfl
  | case3 a b =>
      simp only [chunkPad5, List.map_cons, List.map_nil, List.flatten_cons,
        List.flatten_nil]
      rw [natToBits_bitsToNat 5 [a, b, false, false, false] rfl]
      rfl
  | case4 a b c =>
      simp only [chunkPad5, List.map_cons, List.map_nil, List.flatten_cons,
        List.flatten_nil]
      rw [natToBits_bitsToNat 5 [a, b, c, false, false] rfl]
      rfl
  | case5 a b c d =>
      simp only [chunkPad5, List.map_cons, List.map_nil, List.flatten_cons,
        List.flatten_nil]
      rw [natToBits_bitsToNat 5 [a, b, c, d, false] rfl]
      rfl
  | case6 a b c d e rest ih =>
      rw [chunkPad5_cons5]
      simp only [List.map_cons, List.flatten_cons]
      rw [natToBits_bitsToNat 5 [a, b, c, d, e] rfl, ih]
      have hmod : (a :: b :: c :: d :: e :: rest).length % 5
          = rest.length % 5 := by
        simp only [List.length_cons]
        omega
      rw [hmod]
      rfl

theorem flatten5_length (gs : List Nat) :
    (List.flatten (gs.map (natToBits 5))).length = 5 * gs.length := by
  induction gs with
  | nil => rfl
  | cons g t ih =>
      simp only [List.map_cons, List.flatten_cons, List.length_append,
        natToBits_length, ih, List.length_cons]
      ring

theorem flatten8_length (bs : List Nat) :
    (List.flatten (bs.map (natToBits 8))).length = 8 * bs.length := by
  induction bs with
  | nil => rfl
  | cons b t ih =>
      simp only [List.map_cons, List.flatten_cons, List.length_append,
        natToBits_length, ih, List.length_cons]
      ring

theorem chunkPad5_flatten5 (gs : List Nat) (hlt : ∀ x ∈ gs, x < 32) :
    chunkPad5 (List.flatten (gs.map (natToBits 5))) = gs := by
  induction gs with
  | nil => rfl
  | cons g t ih =>
      simp only [List.map_cons, List.flatten_cons]
      rw [chunkPad5_append5 (natToBits_length 5 g)]
      rw [bitsToNat_natToBits]
      have hg : g % 2 ^ 5 = g := by
        have := hlt g (List.mem_cons_self g t)
        exact Nat.mod_eq_of_lt (by norm_num; omega)
      rw [hg, ih (fun x hx => hlt x (List.mem_cons_of_mem g hx))]

theorem chunk8_length (l : List Bool) : (chunk8 l).length = l.length / 8 := by
  induction l using chunk8.induct with
  | case1 a b c d e f g h rest ih =>
      rw [chunk8]
      simp only [List.length_cons, ih]
      omega
  | case2 l hne =>
      have hlt : l.length < 8 := by
        rcases l with _ | ⟨a, _ | ⟨b, _ | ⟨c, _ | ⟨d, _ | ⟨e, _ | ⟨f, _ |
          ⟨g, _ | ⟨h8, t⟩⟩⟩⟩⟩⟩⟩⟩
        all_goals simp only [List.length_cons, List.length_nil]
        all_goals try omega
        exact absurd rfl (hne a b c d e f g h8 t)
      rw [chunk8_short hlt]
      simp only [List.length_nil]
      omega

theorem flatten8_chunk8 (l : List Bool) :
    List.flatten ((chunk8 l).map (natToBits 8))
      = l.take (8 * (l.length / 8)) := by
  induction l using chunk8.induct with
  | case1 a b c d e f g h rest ih =>
      rw [chunk8]
      simp only [List.map_cons, List.flatten_cons]
      rw [natToBits_bitsToNat 8 [a, b, c, d, e, f, g, h] rfl, ih]
      have hdiv : (a :: b :: c :: d :: e :: f :: g :: h :: rest).length / 8
          = rest.length / 8 + 1 := by
        simp only [List.length_cons]
        omega
      rw [hdiv]
      have hmul : 8 * (rest.length / 8 + 1) = 8 + 8 * (rest.length / 8) := by
        ring
      rw [hmul]
      have hsplit := @List.take_append Bool [a, b, c, d, e, f, g, h]
        rest (8 * (rest.length / 8))
      simp only [List.length_cons, List.length_nil, Nat.zero_add] at hsplit
      norm_num at hsplit
      exact hsplit.symm
  | case2 l hne =>
      have hlt : l.length < 8 := by
        rcases l with _ | ⟨a, _ | ⟨b, _ | ⟨c, _ | ⟨d, _ | ⟨e, _ | ⟨f, _ |
          ⟨g, _ | ⟨h8, t⟩⟩⟩⟩⟩⟩⟩⟩
        all_goals simp only [List.length_cons, List.length_nil]
        all_goals try omega
        exact absurd rfl (hne a b c d e f g h8 t)
      rw [chunk8_short hlt]
      have : l.length / 8 = 0 := by omega
      rw [this]
      rfl

theorem chunk8_flatten8_append (bs : List Nat) (tail : List Bool)
    (hb : ∀ b ∈ bs, b < 256) (ht : tail.length < 8) :
    chunk8 (List.flatten (bs.map (natToBits 8)) ++ tail) = bs := by
  induction bs with
  | nil => simpa using chunk8_short ht
  | cons b t ih =>
      simp only [List.map_cons, List.flatten_cons, List.append_assoc]
      rw [chunk8_append8 (natToBits_length 8 b)]
      rw [bitsToNat_natToBits]
      have hbm : b % 2 ^ 8 = b := by
        have := hb b (List.mem_cons_self b t)
        exact Nat.mod_eq_of_lt (by norm_num; omega)
      rw [hbm, ih (fun x hx => hb x (List.mem_cons_of_mem b hx))]

/-- Canonical round trip: packing bytes into 5-bit groups and unpacking
recovers the bytes (padding is canonical by construction). -/
theorem unpack_pack (bytes : List Nat) (hb : ∀ b ∈ bytes, b < 256) :
    unpack5to8 (pack8to5 bytes) = some bytes := by
  have hflat := join5_chunkPad5 (List.flatten (bytes.map (natToBits 8)))
  have hJlen : (List.flatten (bytes.map (natToBits 8))).length
      = 8 * bytes.length := flatten8_length bytes
  set J8 := List.flatten (bytes.map (natToBits 8)) with hJ8
  set r := (5 - J8.length % 5) % 5 with hr
  have hrlt : r < 5 := Nat.mod_lt _ (by omega)
  rw [unpack5to8, pack8to5]
  rw [hflat]
  have hlen : (J8 ++ List.replicate r false).length = J8.length + r := by
    simp [List.length_append, List.length_replicate]
  rw [hlen]
  have hmod : (J8.length + r) % 8 = r := by omega
  rw [hmod]
  rw [if_neg (by omega : ¬ 5 ≤ r)]
  have hsub : J8.length + r - r = J8.length := by omega
  rw [hsub, List.drop_left]
  have hany : (List.replicate r false).any id = false := by
    simp [List.any_eq_true]
  rw [hany]
  simp only [Bool.false_eq_true, if_false]
  rw [chunk8_flatten8_append bytes (List.replicate r false) hb
    (by simp [List.length_replicate]; omega)]

theorem chunkPad5_take_flatten5 (gs : List Nat) (r : Nat)
    (hg : ∀ x ∈ gs, x < 32) (hr : r < 5)
    (hz : ∀ b ∈ (List.flatten (gs.map (natToBits 5))).drop
      (5 * gs.length - r), b = false) :
    chunkPad5 ((List.flatten (gs.map (natToBits 5))).take
      (5 * gs.length - r)) = gs := by
  induction gs with
  | nil => simp [chunkPad5]
  | cons g t ih =>
      have hglt : g < 32 := hg g (List.mem_cons_self g t)
      have hgval : bitsToNat (natToBits 5 g) = g := by
        rw [bitsToNat_natToBits]
        exact Nat.mod_eq_of_lt (by norm_num; omega)
      cases t with
      | nil =>
          obtain ⟨a, b, c, d, e, hl⟩ := exists_five (natToBits_length 5 g)
          simp only [List.map_cons, List.map_nil, List.flatten_cons,
            List.flatten_nil, List.append_nil, List.length_cons,
            List.length_nil, hl] at hz ⊢
          rw [hl] at hgval
          interval_cases r
          · simp only [Nat.sub_zero]
            rw [List.take_of_length_le (by simp)]
            have : chunkPad5 [a, b, c, d, e] = [bitsToNat [a, b, c, d, e]] :=
              rfl
            rw [this, hgval]
          · have hd := hz e (by simp)
            subst hd
            simp only [← hgval]
            rfl
          · have hd := hz d (by simp)
            have he := hz e (by simp)
            subst hd he
            simp only [← hgval]
            rfl
          · have hc := hz c (by simp)
            have hd := hz d (by simp)
            have he := hz e (by simp)
            subst hc hd he
            simp only [← hgval]
            rfl
          · have hbb := hz b (by simp)
            have hc := hz c (by simp)
            have hd := hz d (by simp)
            have he := hz e (by simp)
            subst hbb hc hd he
            simp only [← hgval]
            rfl
      | cons g2 t2 =>
          have hkey : 5 * (g :: g2 :: t2).length - r
              = (natToBits 5 g).length + (5 * (g2 :: t2).length - r) := by
            rw [natToBits_length]
            simp only [List.length_cons]
            omega
          simp only [List.map_cons, List.flatten_cons] at hz ⊢
          rw [hkey] at hz ⊢
          rw [List.take_append]
          rw [List.drop_append] at hz
          rw [chunkPad5_append5 (natToBits_length 5 g), hgval]
          have harg : ∀ b ∈ (List.flatten ((g2 :: t2).map (natToBits 5))).drop
              (5 * (g2 :: t2).length - r), b = false := by
            intro b hb
            apply hz
            simp only [List.map_cons, List.flatten_cons] at hb
            exact hb
          have ihres := ih (fun x hx => hg x (List.mem_cons_of_mem g hx)) harg
          simp only [List.map_cons, List.flatten_cons] at ihres
          rw [ihres]

/-- Reverse round trip: if unpacking succeeds (canonical padding), packing
the resulting bytes restores the original 5-bit groups. -/
theorem pack_unpack (groups bytes : List Nat) (hg : ∀ x ∈ groups, x < 32)
    (h : unpack5to8 groups = some bytes) : pack8to5 bytes = groups := by
  rw [unpack5to8] at h
  by_cases h5 : 5 ≤ (List.flatten (groups.map (natToBits 5))).length % 8
  · rw [if_pos h5] at h; exact absurd h (by simp)
  · rw [if_neg h5] at h
    by_cases hany : ((List.flatten (groups.map (natToBits 5))).drop
        ((List.flatten (groups.map (natToBits 5))).length
          - (List.flatten (groups.map (natToBits 5))).length % 8)).any id
    · rw [if_pos hany] at h; exact absurd h (by simp)
    · rw [if_neg hany] at h
      have hbytes : bytes
          = chunk8 (List.flatten (groups.map (natToBits 5))) := by
        exact (Option.some_injective _ h).symm
      subst hbytes
      rw [pack8to5, flatten8_chunk8]
      have hlen : (List.flatten (groups.map (natToBits 5))).length
          = 5 * groups.length := flatten5_length groups
      have hdiveq : 8 * ((List.flatten (groups.map (natToBits 5))).length / 8)
          = 5 * groups.length
            - (List.flatten (groups.map (natToBits 5))).length % 8 := by
        omega
      rw [hdiveq]
      apply chunkPad5_take_flatten5 groups _ hg (by omega)
      rw [← hlen]
      intro b hb
      cases b with
      | false => rfl
      | true =>
          exfalso
          apply hany
          rw [List.any_eq_true]
          exact ⟨true, hb, rfl⟩

/-! ### GF(32) polynomial checksum

Modelled from the spec: the checksum expands the prefix into the low 5 bits
of each character plus a zero separator, concatenates the payload groups and
eight zero symbols, and reduces through a 40-bit LFSR-style state: one step
per symbol (shift state by 5, XOR in the symbol, and XOR in each of the five
fixed generator constants whose bit of the pre-shift top 5 bits is set).
The final remainder XORed with the constant 1 yields the eight 5-bit
checksum symbols, most significant first. -/

def condXor (b : Bool) (g x : Nat) : Nat := if b then x ^^^ g else x

def polyModStep (c value : Nat) : Nat :=
  condXor ((c / 2 ^ 35).testBit 4) 0x1e4f43e470
    (condXor ((c / 2 ^ 35).testBit 3) 0xae2eabe2a8
      (condXor ((c / 2 ^ 35).testBit 2) 0xf33e5fb3c4
        (condXor ((c / 2 ^ 35).testBit 1) 0x79b76d99e2
          (condXor ((c / 2 ^ 35).testBit 0) 0x98f2bc8e61
            ((c % 2 ^ 35) * 32 ^^^ value)))))

def rawPoly (values : List Nat) : Nat := values.foldl polyModStep 1

def polyMod (values : List Nat) : Nat := rawPoly values ^^^ 1

def prefixExpand (chars : List Char) : List Nat :=
  chars.map (fun c => c.toNat % 32) ++ [0]

def calculateChecksum (chars : List Char) (payload : List Nat) : List Nat :=
  chunkPad5 (natToBits 40
    (polyMod (prefixExpand chars ++ payload ++ List.replicate 8 0)))

def verifyChecksum (chars : List Char) (payload : List Nat) : Bool :=
  polyMod (prefixExpand chars ++ payload) == 0

theorem xor_div_pow (a b n : Nat) :
    (a ^^^ b) / 2 ^ n = a / 2 ^ n ^^^ b / 2 ^ n := by
  rw [← Nat.shiftRight_eq_div_pow, ← Nat.shiftRight_eq_div_pow,
    ← Nat.shiftRight_eq_div_pow]
  apply Nat.eq_of_testBit_eq
  intro i
  simp [Nat.testBit_shiftRight, Nat.testBit_xor]

theorem xor_mod_pow (a b n : Nat) :
    (a ^^^ b) % 2 ^ n = a % 2 ^ n ^^^ b % 2 ^ n := by
  rw [← Nat.and_pow_two_sub_one_eq_mod, ← Nat.and_pow_two_sub_one_eq_mod,
    ← Nat.and_pow_two_sub_one_eq_mod, Nat.and_xor_distrib_right]

theorem xor_mul_pow (a b n : Nat) :
    (a ^^^ b) * 2 ^ n = a * 2 ^ n ^^^ b * 2 ^ n := by
  rw [← Nat.shiftLeft_eq, ← Nat.shiftLeft_eq, ← Nat.shiftLeft_eq]
  apply Nat.eq_of_testBit_eq
  intro i
  by_cases h : n ≤ i <;> simp [Nat.testBit_shiftLeft, Nat.testBit_xor, h]

theorem xor_mul_32 (a b : Nat) : (a ^^^ b) * 32 = a * 32 ^^^ b * 32 := by
  have h32 : (32:Nat) = 2 ^ 5 := by norm_num
  rw [h32]
  exact xor_mul_pow a b 5

theorem condXor_xor (b : Bool) (g x v : Nat) :
    condXor b g (x ^^^ v) = condXor b g x ^^^ v := by
  cases b with
  | false => rfl
  | true =>
      show (x ^^^ v) ^^^ g = (x ^^^ g) ^^^ v
      rw [Nat.xor_assoc, Nat.xor_assoc, Nat.xor_comm v g]

theorem polyModStep_xor (c v : Nat) :
    polyModStep c v = polyModStep c 0 ^^^ v := by
  unfold polyModStep
  rw [show (c % 2 ^ 35) * 32 ^^^ v = ((c % 2 ^ 35) * 32 ^^^ 0) ^^^ v by
    rw [Nat.xor_zero]]
  rw [condXor_xor, condXor_xor, condXor_xor, condXor_xor, condXor_xor]

theorem polyModStep_perturb (c d v : Nat) (hd : d < 2 ^ 35) :
    polyModStep (c ^^^ d) v = polyModStep c v ^^^ d * 32 := by
  unfold polyModStep
  have hdiv : (c ^^^ d) / 2 ^ 35 = c / 2 ^ 35 := by
    rw [xor_div_pow, Nat.div_eq_of_lt hd, Nat.xor_zero]
  have hmod : (c ^^^ d) % 2 ^ 35 = c % 2 ^ 35 ^^^ d := by
    rw [xor_mod_pow, Nat.mod_eq_of_lt hd]
  rw [hdiv, hmod, xor_mul_32]
  rw [show (c % 2 ^ 35) * 32 ^^^ d * 32 ^^^ v
      = ((c % 2 ^ 35) * 32 ^^^ v) ^^^ d * 32 by
    rw [Nat.xor_assoc, Nat.xor_assoc, Nat.xor_comm (d * 32) v]]
  rw [condXor_xor, condXor_xor, condXor_xor, condXor_xor, condXor_xor]

theorem foldl_polyModStep_perturb :
    ∀ (xs : List Nat) (c d : Nat), 5 * xs.length ≤ 40 →
      d < 2 ^ (40 - 5 * xs.length) →
      xs.foldl polyModStep (c ^^^ d)
        = xs.foldl polyModStep c ^^^ d * 2 ^ (5 * xs.length) := by
  intro xs
  induction xs with
  | nil =>
      intro c d _ _
      simp
  | cons x t ih =>
      intro c d h1 h2
      simp only [List.foldl_cons, List.length_cons]
      have hle : 5 * (t.length + 1) ≤ 40 := by
        simpa using h1
      have hd35 : d < 2 ^ 35 := by
        apply lt_of_lt_of_le h2
        apply Nat.pow_le_pow_right (by omega)
        simp only [List.length_cons]
        omega
      rw [polyModStep_perturb c d x hd35]
      have hd2 : d * 32 < 2 ^ (40 - 5 * t.length) := by
        have h2' : d < 2 ^ (40 - 5 * (t.length + 1)) := by
          simpa using h2
        have he : 40 - 5 * (t.length + 1) + 5 = 40 - 5 * t.length := by
          omega
        calc d * 32 < 2 ^ (40 - 5 * (t.length + 1)) * 32 :=
              (mul_lt_mul_right (by norm_num)).mpr h2'
          _ = 2 ^ (40 - 5 * (t.length + 1)) * 2 ^ 5 := by norm_num
          _ = 2 ^ (40 - 5 * (t.length + 1) + 5) := by rw [← Nat.pow_add]
          _ = 2 ^ (40 - 5 * t.length) := by rw [he]
      rw [ih (polyModStep c x) (d * 32) (by omega) hd2]
      congr 1
      have he2 : 5 * (t.length + 1) = 5 * t.length + 5 := by ring
      rw [he2, Nat.pow_add]
      ring

theorem mul_pow_add_eq_xor (a b n : Nat) (hb : b < 2 ^ n) :
    a * 2 ^ n + b = a * 2 ^ n ^^^ b := by
  rw [Nat.mul_comm a (2 ^ n), Nat.mul_add_lt_is_or hb]
  apply Nat.eq_of_testBit_eq
  intro i
  simp only [Nat.testBit_or, Nat.testBit_xor]
  by_cases h : i < n
  · have h1 : (2 ^ n * a).testBit i = false := by
      rw [Nat.mul_comm, ← Nat.shiftLeft_eq]
      simp [Nat.testBit_shiftLeft]
      omega
    simp [h1]
  · have h2 : b.testBit i = false :=
      Nat.testBit_lt_two_pow
        (lt_of_lt_of_le hb (Nat.pow_le_pow_right (by omega) (by omega)))
    simp [h2]

theorem foldl_polyModStep_vs_zeros :
    ∀ (xs : List Nat) (c : Nat), (∀ x ∈ xs, x < 32) → 5 * xs.length ≤ 40 →
      xs.foldl polyModStep c
        = (List.replicate xs.length 0).foldl polyModStep c
          ^^^ bitsToNat (List.flatten (xs.map (natToBits 5))) := by
  intro xs
  induction xs with
  | nil =>
      intro c _ _
      simp [bitsToNat]
  | cons x t ih =>
      intro c hx h40
      simp only [List.foldl_cons, List.length_cons, List.map_cons,
        List.flatten_cons, List.replicate_succ]
      rw [polyModStep_xor c x]
      have hxlt : x < 2 ^ (40 - 5 * t.length) := by
        have hx32 : x < 32 := hx x (List.mem_cons_self x t)
        have h5 : (32:Nat) = 2 ^ 5 := by norm_num
        apply lt_of_lt_of_le (h5 ▸ hx32)
        apply Nat.pow_le_pow_right (by omega)
        simp only [List.length_cons] at h40
        omega
      rw [foldl_polyModStep_perturb t (polyModStep c 0) x
        (by simp only [List.length_cons] at h40; omega) hxlt]
      rw [ih (polyModStep c 0)
        (fun y hy => hx y (List.mem_cons_of_mem _ hy))
        (by simp only [List.length_cons] at h40; omega)]
      rw [Nat.xor_assoc]
      congr 1
      rw [bitsToNat_append, bitsToNat_natToBits, flatten5_length]
      have hx32 : x < 32 := hx x (List.mem_cons_self x t)
      have hxmod : x % 2 ^ 5 = x := Nat.mod_eq_of_lt (by norm_num; omega)
      rw [hxmod]
      have hplt : bitsToNat (List.flatten (t.map (natToBits 5)))
          < 2 ^ (5 * t.length) := by
        have := bitsToNat_lt (List.flatten (t.map (natToBits 5)))
        rwa [flatten5_length] at this
      rw [mul_pow_add_eq_xor _ _ _ hplt]
      rw [Nat.xor_comm]

theorem polyModStep_lt (c v : Nat) (hv : v < 32) (_hc : c < 2 ^ 40) :
    polyModStep c v < 2 ^ 40 := by
  have condlt : ∀ (b : Bool) (g x : Nat), g < 2 ^ 40 → x < 2 ^ 40 →
      condXor b g x < 2 ^ 40 := by
    intro b g x hg hx
    cases b with
    | false => exact hx
    | true => exact Nat.xor_lt_two_pow hx hg
  have base : (c % 2 ^ 35) * 32 ^^^ v < 2 ^ 40 := by
    apply Nat.xor_lt_two_pow
    · have hm : c % 2 ^ 35 < 2 ^ 35 := Nat.mod_lt c (by positivity)
      calc (c % 2 ^ 35) * 32 < 2 ^ 35 * 32 :=
            (mul_lt_mul_right (by norm_num)).mpr hm
        _ = 2 ^ 40 := by norm_num
    · calc v < 32 := hv
        _ ≤ 2 ^ 40 := by norm_num
  unfold polyModStep
  apply condlt _ _ _ (by norm_num)
  apply condlt _ _ _ (by norm_num)
  apply condlt _ _ _ (by norm_num)
  apply condlt _ _ _ (by norm_num)
  exact condlt _ _ _ (by norm_num) base

theorem rawPoly_lt (values : List Nat) (hv : ∀ v ∈ values, v < 32) :
    rawPoly values < 2 ^ 40 := by
  have haux : ∀ (vs : List Nat) (c : Nat), (∀ v ∈ vs, v < 32) →
      c < 2 ^ 40 → vs.foldl polyModStep c < 2 ^ 40 := by
    intro vs
    induction vs with
    | nil => intro c _ hc; exact hc
    | cons v t ih =>
        intro c hvs hc
        exact ih _ (fun y hy => hvs y (List.mem_cons_of_mem _ hy))
          (polyModStep_lt c v (hvs v (List.mem_cons_self v t)) hc)
  exact haux values 1 hv (by norm_num)

theorem chunkPad5_length (l : List Bool) :
    (chunkPad5 l).length = (l.length + 4) / 5 := by
  induction l using chunkPad5.induct with
  | case1 => rfl
  | case2 a => simp [chunkPad5]
  | case3 a b => simp [chunkPad5]
  | case4 a b c => simp [chunkPad5]
  | case5 a b c d => simp [chunkPad5]
  | case6 a b c d e rest ih =>
      rw [chunkPad5_cons5]
      simp only [List.length_cons, ih]
      omega

theorem prefixExpand_lt (chars : List Char) :
    ∀ x ∈ prefixExpand chars, x < 32 := by
  intro x hx
  rcases List.mem_append.mp hx with hx | hx
  · obtain ⟨c, _, rfl⟩ := List.mem_map.mp hx
    exact Nat.mod_lt _ (by omega)
  · simp only [List.mem_singleton] at hx
    omega

theorem calculateChecksum_length (chars : List Char) (payload : List Nat) :
    (calculateChecksum chars payload).length = 8 := by
  rw [calculateChecksum, chunkPad5_length, natToBits_length]

theorem calculateChecksum_lt (chars : List Char) (payload : List Nat) :
    ∀ x ∈ calculateChecksum chars payload, x < 32 := by
  intro x hx
  exact chunkPad5_lt _ x hx

theorem polyMod_lt (values : List Nat) (hv : ∀ v ∈ values, v < 32) :
    polyMod values < 2 ^ 40 := by
  rw [polyMod]
  exact Nat.xor_lt_two_pow (rawPoly_lt values hv) (by norm_num)

theorem rawPoly_append (l₁ l₂ : List Nat) :
    rawPoly (l₁ ++ l₂) = l₂.foldl polyModStep (rawPoly l₁) := by
  rw [rawPoly, rawPoly, List.foldl_append]

/-- Appending the computed checksum always verifies. -/
theorem verify_calculate (chars : List Char) (payload : List Nat)
    (hp : ∀ x ∈ payload, x < 32) :
    verifyChecksum chars (payload ++ calculateChecksum chars payload)
      = true := by
  set cs := calculateChecksum chars payload with hcs
  have hdata : ∀ x ∈ prefixExpand chars ++ payload, x < 32 := by
    intro x hx
    rcases List.mem_append.mp hx with hx | hx
    · exact prefixExpand_lt chars x hx
    · exact hp x hx
  have hzlt : ∀ x ∈ prefixExpand chars ++ payload ++ List.replicate 8 0,
      x < 32 := by
    intro x hx
    rcases List.mem_append.mp hx with hx | hx
    · rcases List.mem_append.mp hx with hx | hx
      · exact prefixExpand_lt chars x hx
      · exact hp x hx
    · have := List.eq_of_mem_replicate hx
      omega
  have hPlt : polyMod (prefixExpand chars ++ payload ++ List.replicate 8 0)
      < 2 ^ 40 := polyMod_lt _ hzlt
  have hflat : List.flatten (cs.map (natToBits 5))
      = natToBits 40
        (polyMod (prefixExpand chars ++ payload ++ List.replicate 8 0)) := by
    rw [hcs, calculateChecksum, join5_chunkPad5, natToBits_length]
    norm_num
  have hlen8 : cs.length = 8 := calculateChecksum_length chars payload
  have hcslt : ∀ x ∈ cs, x < 32 := calculateChecksum_lt chars payload
  rw [verifyChecksum]
  have hassoc : prefixExpand chars ++ (payload ++ cs)
      = (prefixExpand chars ++ payload) ++ cs := by
    rw [List.append_assoc]
  rw [hassoc, polyMod, rawPoly_append]
  rw [foldl_polyModStep_vs_zeros cs _ hcslt (by rw [hlen8])]
  rw [hflat, bitsToNat_natToBits, Nat.mod_eq_of_lt hPlt]
  rw [hlen8]
  rw [show (List.replicate 8 (0:Nat)).foldl polyModStep
        (rawPoly (prefixExpand chars ++ payload))
      = rawPoly ((prefixExpand chars ++ payload) ++ List.replicate 8 0) from
    (rawPoly_append _ _).symm]
  rw [polyMod]
  rw [show ∀ a : Nat, a ^^^ (a ^^^ 1) = 1 from fun a => by
    rw [← Nat.xor_assoc, Nat.xor_self, Nat.zero_xor]]
  rfl

/-- A verifying 8-symbol tail is necessarily the computed checksum. -/
theorem checksum_unique (chars : List Char) (payload cs : List Nat)
    (hcs : ∀ x ∈ cs, x < 32) (hlen : cs.length = 8)
    (hver : verifyChecksum chars (payload ++ cs) = true) :
    cs = calculateChecksum chars payload := by
  have hassoc : prefixExpand chars ++ (payload ++ cs)
      = (prefixExpand chars ++ payload) ++ cs := by
    rw [List.append_assoc]
  rw [verifyChecksum, hassoc] at hver
  have hver0 : polyMod ((prefixExpand chars ++ payload) ++ cs) = 0 := by
    simpa using hver
  rw [polyMod, rawPoly_append] at hver0
  rw [foldl_polyModStep_vs_zeros cs _ hcs (by rw [hlen]), hlen] at hver0
  set Z := (List.replicate 8 (0:Nat)).foldl polyModStep
    (rawPoly (prefixExpand chars ++ payload)) with hZ
  set P5 := bitsToNat (List.flatten (cs.map (natToBits 5))) with hP5
  have hP5val : P5 = Z ^^^ 1 := by
    have h1 : (Z ^^^ P5) ^^^ 1 = 0 := hver0
    have h2 : Z ^^^ (P5 ^^^ 1) = 0 := by
      rw [← Nat.xor_assoc]
      exact h1
    have h3 : P5 ^^^ 1 = Z := by
      have h4 := congrArg (fun t => Z ^^^ t) h2
      simp only at h4
      rwa [← Nat.xor_assoc, Nat.xor_self, Nat.zero_xor, Nat.xor_zero] at h4
    have h5 := congrArg (fun t => t ^^^ 1) h3
    simpa [Nat.xor_assoc] using h5
  have hZP : Z ^^^ 1
      = polyMod (prefixExpand chars ++ payload ++ List.replicate 8 0) := by
    rw [hZ, polyMod,
      rawPoly_append (prefixExpand chars ++ payload) (List.replicate 8 0)]
  have hflatlen : (List.flatten (cs.map (natToBits 5))).length = 40 := by
    rw [flatten5_length, hlen]
  calc cs = chunkPad5 (List.flatten (cs.map (natToBits 5))) :=
        (chunkPad5_flatten5 cs hcs).symm
    _ = chunkPad5 (natToBits 40 P5) := by
        rw [hP5, natToBits_bitsToNat 40 _ hflatlen]
    _ = calculateChecksum chars payload := by
        rw [hP5val, hZP, calculateChecksum]

/-! ### Base-32 alphabet

Modelled from the spec: the fixed 32-character alphabet (the bech32 charset),
rendering 5-bit symbols to characters and back. -/

def charset : List Char :=
  ['q', 'p', 'z', 'r', 'y', '9', 'x', '8', 'g', 'f', '2', 't', 'v', 'd',
   'w', '0', 's', '3', 'j', 'n', '5', '4', 'k', 'h', 'c', 'e', '6', 'm',
   'u', 'a', '7', 'l']

def charsetGet (g : Nat) : Char := charset.getD g 'q'

def charsetIndexIn (c : Char) : List Char → Option Nat
  | [] => none
  | d :: rest =>
      if d = c then some 0
      else (charsetIndexIn c rest).map (fun n => n + 1)

def charsetIndex (c : Char) : Option Nat := charsetIndexIn c charset

def decodeFromBase32 : List Char → Option (List Nat)
  | [] => some []
  | c :: rest =>
      match charsetIndex c, decodeFromBase32 rest with
      | some g, some gs => some (g :: gs)
      | _, _ => none

theorem charsetIndexIn_spec (c : Char) :
    ∀ (l : List Char) (g : Nat), charsetIndexIn c l = some g →
      g < l.length ∧ l.getD g 'q' = c := by
  intro l
  induction l with
  | nil => intro g h; simp [charsetIndexIn] at h
  | cons d rest ih =>
      intro g h
      rw [charsetIndexIn] at h
      by_cases hd : d = c
      · rw [if_pos hd] at h
        have hg : g = 0 := by
          have := Option.some_injective _ h.symm
          omega
        subst hg
        refine ⟨by simp, ?_⟩
        rw [← hd]
        rfl
      · rw [if_neg hd] at h
        cases hrec : charsetIndexIn c rest with
        | none => rw [hrec] at h; simp at h
        | some g' =>
            rw [hrec] at h
            simp at h
            have hg : g = g' + 1 := by omega
            subst hg
            have := ih g' hrec
            constructor
            · simp only [List.length_cons]; omega
            · exact this.2

theorem charsetIndex_spec (c : Char) (g : Nat)
    (h : charsetIndex c = some g) : g < 32 ∧ charsetGet g = c := by
  have := charsetIndexIn_spec c charset g h
  exact ⟨this.1, this.2⟩

theorem charsetIndex_charsetGet : ∀ g, g < 32 →
    charsetIndex (charsetGet g) = some g := by decide

theorem decodeFromBase32_map (gs : List Nat) (h : ∀ g ∈ gs, g < 32) :
    decodeFromBase32 (gs.map charsetGet) = some gs := by
  induction gs with
  | nil => rfl
  | cons g t ih =>
      simp only [List.map_cons, decodeFromBase32]
      rw [charsetIndex_charsetGet g (h g (List.mem_cons_self g t)),
        ih (fun x hx => h x (List.mem_cons_of_mem g hx))]

theorem decodeFromBase32_spec :
    ∀ (chars : List Char) (gs : List Nat), decodeFromBase32 chars = some gs →
      (∀ g ∈ gs, g < 32) ∧ chars = gs.map charsetGet := by
  intro chars
  induction chars with
  | nil =>
      intro gs h
      rw [decodeFromBase32] at h
      have := Option.some_injective _ h
      subst this
      simp
  | cons c rest ih =>
      intro gs h
      rw [decodeFromBase32] at h
      cases hc : charsetIndex c with
      | none => rw [hc] at h; simp at h
      | some g =>
          cases hrest : decodeFromBase32 rest with
          | none => rw [hc, hrest] at h; simp at h
          | some gs' =>
              rw [hc, hrest] at h
              simp only at h
              have hgs : gs = g :: gs' := (Option.some_injective _ h).symm
              subst hgs
              have hspec := charsetIndex_spec c g hc
              have hih := ih gs' hrest
              constructor
              · intro x hx
                rcases List.mem_cons.mp hx with rfl | hx
                · exact hspec.1
                · exact hih.1 x hx
              · simp only [List.map_cons]
                rw [← hih.2, hspec.2]

/-! ### ASCII case handling -/

def lowerChar (c : Char) : Char :=
  if 65 ≤ c.toNat ∧ c.toNat ≤ 90 then Char.ofNat (c.toNat + 32) else c

def upperChar (c : Char) : Char :=
  if 97 ≤ c.toNat ∧ c.toNat ≤ 122 then Char.ofNat (c.toNat - 32) else c

def isUpperLetter (c : Char) : Bool := 65 ≤ c.toNat && c.toNat ≤ 90

def isLowerLetter (c : Char) : Bool := 97 ≤ c.toNat && c.toNat ≤ 122

def toUpperStr (s : String) : String := String.mk (s.data.map upperChar)

theorem toNat_ofNat_ascii : ∀ n, n < 256 → (Char.ofNat n).toNat = n := by
  decide

theorem char_eq_of_toNat_eq {c d : Char} (h : c.toNat = d.toNat) : c = d := by
  have h2 := congrArg Char.ofNat h
  rwa [Char.ofNat_toNat, Char.ofNat_toNat] at h2

theorem lowerChar_upperChar (c : Char) :
    lowerChar (upperChar c) = lowerChar c := by
  by_cases hl : 97 ≤ c.toNat ∧ c.toNat ≤ 122
  · have h1 : upperChar c = Char.ofNat (c.toNat - 32) := by
      rw [upperChar, if_pos hl]
    have ht : (Char.ofNat (c.toNat - 32)).toNat = c.toNat - 32 :=
      toNat_ofNat_ascii _ (by omega)
    rw [h1, lowerChar, if_pos (by rw [ht]; omega), ht]
    rw [lowerChar, if_neg (by omega)]
    have harg : c.toNat - 32 + 32 = c.toNat := by omega
    rw [harg, Char.ofNat_toNat]
  · have h1 : upperChar c = c := by rw [upperChar, if_neg hl]
    rw [h1]

theorem upperChar_upperChar (c : Char) :
    upperChar (upperChar c) = upperChar c := by
  by_cases hl : 97 ≤ c.toNat ∧ c.toNat ≤ 122
  · have h1 : upperChar c = Char.ofNat (c.toNat - 32) := by
      rw [upperChar, if_pos hl]
    have ht : (Char.ofNat (c.toNat - 32)).toNat = c.toNat - 32 :=
      toNat_ofNat_ascii _ (by omega)
    rw [h1, upperChar, if_neg (by rw [ht]; omega)]
  · have h1 : upperChar c = c := by rw [upperChar, if_neg hl]
    rw [h1]
    exact h1

theorem lowerChar_ne_of_upper (c : Char) (h : isUpperLetter c = true) :
    lowerChar c ≠ c := by
  rw [isUpperLetter] at h
  simp only [Bool.and_eq_true, decide_eq_true_eq] at h
  rw [lowerChar, if_pos (by omega)]
  intro heq
  have ht : (Char.ofNat (c.toNat + 32)).toNat = c.toNat + 32 :=
    toNat_ofNat_ascii _ (by omega)
  have := congrArg Char.toNat heq
  rw [ht] at this
  omega

theorem upperChar_ne_of_lower (c : Char) (h : isLowerLetter c = true) :
    upperChar c ≠ c := by
  rw [isLowerLetter] at h
  simp only [Bool.and_eq_true, decide_eq_true_eq] at h
  rw [upperChar, if_pos (by omega)]
  intro heq
  have ht : (Char.ofNat (c.toNat - 32)).toNat = c.toNat - 32 :=
    toNat_ofNat_ascii _ (by omega)
  have := congrArg Char.toNat heq
  rw [ht] at this
  omega

/-! ### Network prefixes, error taxonomy, address values

Modelled from the spec (the codec implementation is not part of the shipped
sources; only its test suite is).  `Bech32Net` plays the role of the Go
`Bech32Prefix` enum; `ParseNet` models `ParsePrefix`, which returns the
Unknown prefix value together with a non-nil error on failure;
`Bech32Net.toStr` models the `String()` method. -/

inductive Bech32Net
  | unknown
  | dagCoin
  | dagReg
  | dagTest
  | dagSim
deriving DecidableEq

inductive AddrError
  | formatError
  | unknownPrefixError
  | wrongNetworkError
  | checksumError
  | paddingError
  | unknownAddressTypeError
  | wrongSizeError
  | invalidLengthError
deriving DecidableEq

/-- Modelled from the spec: the textual messages named in the decode error
taxonomy (only the four messages asserted by the shipped tests are pinned
by the repository). -/
def AddrError.message : AddrError → String
  | .formatError => "decoded address is of unknown format"
  | .unknownPrefixError => "decoded address\x27s prefix could not be parsed"
  | .wrongNetworkError => "decoded address is of wrong network"
  | .checksumError => "checksum mismatch"
  | .paddingError => "padding error"
  | .unknownAddressTypeError => "unknown address type"
  | .wrongSizeError => "decoded address is of unknown size"
  | .invalidLengthError => "invalid hash length"

/-- Modelled from the spec: resolve a prefix string to a network,
case-sensitively against the canonical lowercase table (decode lowercases
first); unknown strings yield the Unknown value plus an error. -/
def ParseNet (s : String) : Bech32Net × Option AddrError :=
  if s = "dagcoin" then (.dagCoin, none)
  else if s = "dagreg" then (.dagReg, none)
  else if s = "dagtest" then (.dagTest, none)
  else if s = "dagsim" then (.dagSim, none)
  else (.unknown, some .unknownPrefixError)

/-- Modelled from the spec: canonical string of a network; Unknown yields
the empty string. -/
def Bech32Net.toStr : Bech32Net → String
  | .dagCoin => "dagcoin"
  | .dagReg => "dagreg"
  | .dagTest => "dagtest"
  | .dagSim => "dagsim"
  | .unknown => ""

inductive AddressKind
  | pubKeyHash
  | scriptHash
deriving DecidableEq

/-- Modelled from the spec: version byte per address kind (pinned by the
concrete test vectors: 0x00 for PubKeyHash, 0x08 for ScriptHash). -/
def versionByte : AddressKind → Nat
  | .pubKeyHash => 0
  | .scriptHash => 8

def versionToKind (v : Nat) : Option AddressKind :=
  if v = 0 then some .pubKeyHash
  else if v = 8 then some .scriptHash
  else none

/-- Modelled from the spec: expected raw payload length per kind (20 bytes
for both hash-based kinds handled by the decoder). -/
def expectedLength : AddressKind → Nat
  | .pubKeyHash => 20
  | .scriptHash => 20

inductive Address
  | pubKeyHash (net : Bech32Net) (hash : List Nat)
  | scriptHash (net : Bech32Net) (hash : List Nat)
deriving DecidableEq

def mkAddress : AddressKind → Bech32Net → List Nat → Address
  | .pubKeyHash, net, h => .pubKeyHash net h
  | .scriptHash, net, h => .scriptHash net h

def Address.scriptAddress : Address → List Nat
  | .pubKeyHash _ h => h
  | .scriptHash _ h => h

/-- Modelled from the spec: the P2PKH constructor validates that the hash
is exactly 20 bytes and otherwise fails with the encode-path length error. -/
def NewAddressPubKeyHash (pkHash : List Nat) (net : Bech32Net) :
    Except AddrError Address :=
  if pkHash.length = 20 then .ok (.pubKeyHash net pkHash)
  else .error .invalidLengthError

/-- Modelled from the spec: the P2SH-from-hash constructor validates that
the hash is exactly 20 bytes. -/
def NewAddressScriptHashFromHash (hash : List Nat) (net : Bech32Net) :
    Except AddrError Address :=
  if hash.length = 20 then .ok (.scriptHash net hash)
  else .error .invalidLengthError

/-! ### Encode and decode

Modelled from the spec: encode builds version byte plus payload, packs to
5-bit groups, appends the checksum and renders through the alphabet with
the canonical prefix and `:` separator.  Decode parses (case check, split
on the last `:`, alphabet), resolves the prefix, compares networks,
verifies the checksum, unpacks, then checks size and dispatches on the
version byte.  Following the shipped tests, the size check (20-byte
payload) precedes the version-byte dispatch. -/

def encodeData (net : Bech32Net) (version : Nat) (payload : List Nat) :
    String :=
  String.mk (net.toStr.data ++ ':'
    :: ((pack8to5 (version :: payload)
      ++ calculateChecksum net.toStr.data
          (pack8to5 (version :: payload))).map charsetGet))

def Address.encodeAddress : Address → String
  | .pubKeyHash net h => encodeData net 0 h
  | .scriptHash net h => encodeData net 8 h

def splitFirst (sep : Char) : List Char → Option (List Char × List Char)
  | [] => none
  | c :: rest =>
      if c = sep then some ([], rest)
      else
        match splitFirst sep rest with
        | none => none
        | some (a, b) => some (c :: a, b)

def splitLastColon (l : List Char) : Option (List Char × List Char) :=
  match splitFirst ':' l.reverse with
  | none => none
  | some (a, b) => some (b.reverse, a.reverse)

def bech32Parse (chars : List Char) :
    Except AddrError (List Char × List Nat) :=
  if chars = chars.map lowerChar ∨ chars = chars.map upperChar then
    match splitLastColon (chars.map lowerChar) with
    | none => .error .formatError
    | some (pre, pay) =>
        if pre = [] then .error .formatError
        else if pay = [] then .error .formatError
        else
          match decodeFromBase32 pay with
          | none => .error .formatError
          | some groups => .ok (pre, groups)
  else .error .formatError

def dispatchDecoded (net : Bech32Net) : List Nat → Except AddrError Address
  | [] => .error .wrongSizeError
  | version :: payload =>
      if payload.length = 20 then
        match versionToKind version with
        | some kind => .ok (mkAddress kind net payload)
        | none => .error .unknownAddressTypeError
      else .error .wrongSizeError

def DecodeAddress (addr : String) (expectedNet : Bech32Net) :
    Except AddrError Address :=
  match bech32Parse addr.data with
  | .error e => .error e
  | .ok (pre, groups) =>
      match ParseNet (String.mk pre) with
      | (_, some e) => .error e
      | (net, none) =>
          if net ≠ expectedNet then .error .wrongNetworkError
          else if verifyChecksum pre groups = false then
            .error .checksumError
          else
            match unpack5to8 (groups.take (groups.length - 8)) with
            | none => .error .paddingError
            | some bytes => dispatchDecoded net bytes

deriving instance DecidableEq for Except

/-! ### p2p headers handler

Embeds `src/server/p2p/on_headers.go`: `OnHeaders` passes the received
headers message down to the sync manager.  The external sync manager is
modelled as a queue of received (message, peer) calls; `QueueHeaders`
records one call. -/

structure MsgHeaders where
  headers : List Nat
deriving DecidableEq

structure PeerHandle where
  id : Nat
deriving DecidableEq

structure QueuedCall where
  msg : MsgHeaders
  fromPeer : PeerHandle
deriving DecidableEq

structure SyncManager where
  queued : List QueuedCall
deriving DecidableEq

def SyncManager.QueueHeaders (sm : SyncManager) (msg : MsgHeaders)
    (p : PeerHandle) : SyncManager :=
  ⟨sm.queued ++ [⟨msg, p⟩]⟩

structure Server where
  syncManager : SyncManager
deriving DecidableEq

structure Peer where
  server : Server
  peer : PeerHandle
deriving DecidableEq

/-- `OnHeaders` from `src/server/p2p/on_headers.go`: the message is passed
down to the sync manager together with the receiving peer. -/
def Peer.OnHeaders (sp : Peer) (msg : MsgHeaders) : SyncManager :=
  sp.server.syncManager.QueueHeaders msg sp.peer

/-! ### Split and parse helper lemmas -/

theorem splitFirst_append (sep : Char) :
    ∀ (a b : List Char), sep ∉ a →
      splitFirst sep (a ++ sep :: b) = some (a, b) := by
  intro a
  induction a with
  | nil =>
      intro b _
      simp [splitFirst]
  | cons x a' ih =>
      intro b hna
      have hx : ¬ x = sep := fun h => hna (h ▸ List.mem_cons_self x a')
      rw [List.cons_append, splitFirst, if_neg hx,
        ih b (fun h => hna (List.mem_cons_of_mem x h))]

theorem splitFirst_spec (sep : Char) :
    ∀ (l a b : List Char), splitFirst sep l = some (a, b) →
      l = a ++ sep :: b ∧ sep ∉ a := by
  intro l
  induction l with
  | nil => intro a b h; simp [splitFirst] at h
  | cons x rest ih =>
      intro a b h
      rw [splitFirst] at h
      by_cases hx : x = sep
      · rw [if_pos hx] at h
        have := Option.some_injective _ h
        have ha : a = [] := by
          have := congrArg Prod.fst this
          exact this.symm
        have hb : b = rest := by
          have := congrArg Prod.snd this
          exact this.symm
        subst ha hb hx
        simp
      · rw [if_neg hx] at h
        cases hrec : splitFirst sep rest with
        | none => rw [hrec] at h; simp at h
        | some p =>
            obtain ⟨a', b'⟩ := p
            rw [hrec] at h
            simp only at h
            have := Option.some_injective _ h
            have ha : a = x :: a' := by
              have := congrArg Prod.fst this
              exact this.symm
            have hb : b = b' := by
              have := congrArg Prod.snd this
              exact this.symm
            subst ha hb
            have hih := ih a' b hrec
            constructor
            · rw [List.cons_append, hih.1]
            · intro hmem
              rcases List.mem_cons.mp hmem with heq | hmem
              · exact hx heq.symm
              · exact hih.2 hmem

theorem splitLastColon_append (pre pay : List Char)
    (_hpre : ':' ∉ pre) (hpay : ':' ∉ pay) :
    splitLastColon (pre ++ ':' :: pay) = some (pre, pay) := by
  rw [splitLastColon]
  have hrev : (pre ++ ':' :: pay).reverse = pay.reverse ++ ':' :: pre.reverse := by
    rw [List.reverse_append, List.reverse_cons, List.append_assoc]
    simp
  rw [hrev, splitFirst_append ':' pay.reverse pre.reverse
    (fun h => hpay (List.mem_reverse.mp h))]
  simp

theorem splitLastColon_spec (l pre pay : List Char)
    (h : splitLastColon l = some (pre, pay)) :
    l = pre ++ ':' :: pay ∧ ':' ∉ pay := by
  rw [splitLastColon] at h
  cases hs : splitFirst ':' l.reverse with
  | none => rw [hs] at h; simp at h
  | some p =>
      obtain ⟨a, b⟩ := p
      rw [hs] at h
      simp only at h
      have hinj := Option.some_injective _ h
      have hpre : pre = b.reverse := by
        have := congrArg Prod.fst hinj
        exact this.symm
      have hpay2 : pay = a.reverse := by
        have := congrArg Prod.snd hinj
        exact this.symm
      subst hpre hpay2
      have hspec := splitFirst_spec ':' l.reverse a b hs
      constructor
      · have := congrArg List.reverse hspec.1
        rw [List.reverse_reverse] at this
        rw [this, List.reverse_append, List.reverse_cons, List.append_assoc]
        simp
      · intro hmem
        exact hspec.2 (List.mem_reverse.mp hmem)

theorem lowerChar_charsetGet : ∀ g, g < 32 →
    lowerChar (charsetGet g) = charsetGet g := by decide

theorem charsetGet_ne_colon : ∀ g, g < 32 → charsetGet g ≠ ':' := by decide

theorem lowerChar_colon : lowerChar ':' = ':' := by decide

theorem net_facts (net : Bech32Net) (h : net ≠ .unknown) :
    (net.toStr.data).map lowerChar = net.toStr.data
    ∧ ':' ∉ net.toStr.data
    ∧ net.toStr.data ≠ []
    ∧ ParseNet (String.mk net.toStr.data) = (net, none) := by
  cases net with
  | unknown => exact absurd rfl h
  | dagCoin => exact ⟨by decide, by decide, by decide, by decide⟩
  | dagReg => exact ⟨by decide, by decide, by decide, by decide⟩
  | dagTest => exact ⟨by decide, by decide, by decide, by decide⟩
  | dagSim => exact ⟨by decide, by decide, by decide, by decide⟩

theorem ParseNet_toStr (s : String) (net : Bech32Net)
    (h : ParseNet s = (net, none)) : net.toStr = s := by
  rw [ParseNet] at h
  by_cases h1 : s = "dagcoin"
  · rw [if_pos h1] at h
    have : net = .dagCoin := by
      have := congrArg Prod.fst h
      exact this.symm
    subst this h1
    rfl
  · rw [if_neg h1] at h
    by_cases h2 : s = "dagreg"
    · rw [if_pos h2] at h
      have : net = .dagReg := by
        have := congrArg Prod.fst h
        exact this.symm
      subst this h2
      rfl
    · rw [if_neg h2] at h
      by_cases h3 : s = "dagtest"
      · rw [if_pos h3] at h
        have : net = .dagTest := by
          have := congrArg Prod.fst h
          exact this.symm
        subst this h3
        rfl
      · rw [if_neg h3] at h
        by_cases h4 : s = "dagsim"
        · rw [if_pos h4] at h
          have : net = .dagSim := by
            have := congrArg Prod.fst h
            exact this.symm
          subst this h4
          rfl
        · rw [if_neg h4] at h
          have := congrArg Prod.snd h
          simp at this

theorem versionToKind_versionByte (v : Nat) (kind : AddressKind)
    (h : versionToKind v = some kind) : versionByte kind = v := by
  rw [versionToKind] at h
  by_cases h0 : v = 0
  · rw [if_pos h0] at h
    have := Option.some_injective _ h
    subst this h0
    rfl
  · rw [if_neg h0] at h
    by_cases h8 : v = 8
    · rw [if_pos h8] at h
      have := Option.some_injective _ h
      subst this h8
      rfl
    · rw [if_neg h8] at h
      simp at h

theorem pack8to5_length (bs : List Nat) :
    (pack8to5 bs).length = (8 * bs.length + 4) / 5 := by
  rw [pack8to5, chunkPad5_length, flatten8_length]

theorem pack8to5_lt (bs : List Nat) : ∀ g ∈ pack8to5 bs, g < 32 := by
  intro g hg
  exact chunkPad5_lt _ g hg

theorem encodeData_data (net : Bech32Net) (v : Nat) (payload : List Nat) :
    (encodeData net v payload).data
      = net.toStr.data ++ ':'
        :: ((pack8to5 (v :: payload)
          ++ calculateChecksum net.toStr.data
              (pack8to5 (v :: payload))).map charsetGet) := rfl

theorem bech32Parse_encode (pre : List Char) (combined : List Nat)
    (hprel : pre.map lowerChar = pre) (hprec : ':' ∉ pre) (hpren : pre ≠ [])
    (hcomb : ∀ g ∈ combined, g < 32) (hne : combined ≠ []) :
    bech32Parse (pre ++ ':' :: combined.map charsetGet)
      = .ok (pre, combined) := by
  set syms := combined.map charsetGet with hsyms
  have hsym_lower : syms.map lowerChar = syms := by
    rw [hsyms, List.map_map]
    apply List.map_congr_left
    intro g hg
    exact lowerChar_charsetGet g (hcomb g hg)
  have hlow : (pre ++ ':' :: syms).map lowerChar = pre ++ ':' :: syms := by
    rw [List.map_append, List.map_cons, hprel, lowerChar_colon, hsym_lower]
  have hsymc : ':' ∉ syms := by
    intro hmem
    obtain ⟨g, hg, heq⟩ := List.mem_map.mp hmem
    exact charsetGet_ne_colon g (hcomb g hg) heq
  have hsymne : syms ≠ [] := by
    intro heq
    rw [hsyms] at heq
    exact hne (List.map_eq_nil_iff.mp heq)
  rw [bech32Parse, if_pos (Or.inl hlow.symm), hlow,
    splitLastColon_append pre syms hprec hsymc]
  simp only [hpren, hsymne, if_false]
  rw [hsyms, decodeFromBase32_map combined hcomb]

/-- Decoding what encode produced reaches the dispatch stage with exactly
the original version byte and payload bytes. -/
theorem decode_encodeData (net : Bech32Net) (v : Nat) (payload : List Nat)
    (hnet : net ≠ .unknown) (hv : v < 256)
    (hbytes : ∀ b ∈ payload, b < 256) :
    DecodeAddress (encodeData net v payload) net
      = dispatchDecoded net (v :: payload) := by
  obtain ⟨hprel, hprec, hpren, hppn⟩ := net_facts net hnet
  set pre := net.toStr.data with hpre
  set groups := pack8to5 (v :: payload) with hgroups
  set cs := calculateChecksum pre groups with hcs
  have hglt : ∀ g ∈ groups, g < 32 := pack8to5_lt _
  have hcslt : ∀ g ∈ cs, g < 32 := calculateChecksum_lt _ _
  have hcomb : ∀ g ∈ groups ++ cs, g < 32 := by
    intro g hg
    rcases List.mem_append.mp hg with hg | hg
    · exact hglt g hg
    · exact hcslt g hg
  have hcombne : groups ++ cs ≠ [] := by
    intro heq
    have := congrArg List.length heq
    rw [List.length_append, calculateChecksum_length] at this
    simp at this
  have hparse : bech32Parse ((encodeData net v payload).data)
      = .ok (pre, groups ++ cs) := by
    rw [encodeData_data]
    exact bech32Parse_encode pre (groups ++ cs) hprel hprec hpren hcomb
      hcombne
  have hcslen : cs.length = 8 := calculateChecksum_length _ _
  have htake : (groups ++ cs).take ((groups ++ cs).length - 8) = groups := by
    have hl : (groups ++ cs).length - 8 = groups.length := by
      rw [List.length_append, hcslen]
      omega
    rw [hl]
    exact List.take_left groups cs
  have hunpack : unpack5to8 groups = some (v :: payload) := by
    rw [hgroups]
    apply unpack_pack
    intro b hb
    rcases List.mem_cons.mp hb with rfl | hb
    · exact hv
    · exact hbytes b hb
  have hver : verifyChecksum pre (groups ++ cs) = true :=
    verify_calculate pre groups hglt
  rw [DecodeAddress, hparse]
  simp only
  rw [hppn]
  simp only
  rw [if_neg (by simp : ¬ net ≠ net)]
  rw [if_neg (by rw [hver]; simp)]
  rw [htake, hunpack]

theorem bech32Parse_ok_spec (chars pre : List Char) (groups : List Nat)
    (h : bech32Parse chars = .ok (pre, groups)) :
    (∀ g ∈ groups, g < 32)
    ∧ chars.map lowerChar = pre ++ ':' :: groups.map charsetGet := by
  rw [bech32Parse] at h
  by_cases hg : chars = chars.map lowerChar ∨ chars = chars.map upperChar
  · rw [if_pos hg] at h
    cases hs : splitLastColon (chars.map lowerChar) with
    | none => rw [hs] at h; simp at h
    | some p =>
        obtain ⟨pre', pay⟩ := p
        rw [hs] at h
        simp only at h
        by_cases hpre : pre' = []
        · rw [if_pos hpre] at h; simp at h
        · rw [if_neg hpre] at h
          by_cases hpay : pay = []
          · rw [if_pos hpay] at h; simp at h
          · rw [if_neg hpay] at h
            cases hd : decodeFromBase32 pay with
            | none => rw [hd] at h; simp at h
            | some gs =>
                rw [hd] at h
                simp only [Except.ok.injEq, Prod.mk.injEq] at h
                obtain ⟨hpe, hge⟩ := h
                have hdspec := decodeFromBase32_spec pay gs hd
                have hsspec := splitLastColon_spec _ _ _ hs
                constructor
                · intro g hgm
                  rw [← hge] at hgm
                  exact hdspec.1 g hgm
                · rw [hsspec.1, hdspec.2, hge, hpe]
  · rw [if_neg hg] at h
    simp at h

theorem mkAddress_encode (kind : AddressKind) (net : Bech32Net)
    (p : List Nat) :
    (mkAddress kind net p).encodeAddress
      = encodeData net (versionByte kind) p := by
  cases kind <;> rfl

/-- Decode succeeding on canonical lowercase text reconstructs the text. -/
theorem encode_decode (addr : String) (net : Bech32Net) (a : Address)
    (hlow : addr.data = addr.data.map lowerChar)
    (h : DecodeAddress addr net = .ok a) :
    a.encodeAddress = addr := by
  rw [DecodeAddress] at h
  cases hp : bech32Parse addr.data with
  | error e => rw [hp] at h; simp at h
  | ok pr =>
      obtain ⟨pre, groups⟩ := pr
      rw [hp] at h
      simp only at h
      cases hpn : ParseNet (String.mk pre) with
      | mk net' oerr =>
          rw [hpn] at h
          cases oerr with
          | some e => simp at h
          | none =>
              simp only at h
              by_cases hne : net' ≠ net
              · rw [if_pos hne] at h; simp at h
              · rw [if_neg hne] at h
                by_cases hverb : verifyChecksum pre groups = false
                · rw [if_pos hverb] at h; simp at h
                · rw [if_neg hverb] at h
                  have hver : verifyChecksum pre groups = true := by
                    cases hb : verifyChecksum pre groups with
                    | false => exact absurd hb hverb
                    | true => rfl
                  cases hu : unpack5to8 (groups.take (groups.length - 8)) with
                  | none => rw [hu] at h; simp at h
                  | some bytes =>
                      rw [hu] at h
                      simp only at h
                      cases bytes with
                      | nil => rw [dispatchDecoded] at h; simp at h
                      | cons v pay2 =>
                          rw [dispatchDecoded] at h
                          by_cases hl20 : pay2.length = 20
                          · rw [if_pos hl20] at h
                            cases hvk : versionToKind v with
                            | none => rw [hvk] at h; simp at h
                            | some kind =>
                                rw [hvk] at h
                                simp only [Except.ok.injEq] at h
                                subst h
                                -- reconstruction
                                have hspec :=
                                  bech32Parse_ok_spec addr.data pre groups hp
                                have haddr : addr.data
                                    = pre ++ ':' :: groups.map charsetGet := by
                                  rw [hlow]
                                  exact hspec.2
                                have hstr : net'.toStr.data = pre := by
                                  have := ParseNet_toStr (String.mk pre)
                                    net' hpn
                                  have h2 := congrArg String.data this
                                  exact h2
                                have htsub : ∀ g ∈ groups.take
                                    (groups.length - 8), g < 32 := by
                                  intro g hg
                                  exact hspec.1 g (List.take_subset _ _ hg)
                                have hdsub : ∀ g ∈ groups.drop
                                    (groups.length - 8), g < 32 := by
                                  intro g hg
                                  exact hspec.1 g (List.drop_subset _ _ hg)
                                have hpack : pack8to5 (v :: pay2)
                                    = groups.take (groups.length - 8) :=
                                  pack_unpack _ _ htsub hu
                                have hlen34 : (groups.take
                                    (groups.length - 8)).length = 34 := by
                                  rw [← hpack, pack8to5_length]
                                  simp only [List.length_cons, hl20]
                                have hglen : groups.length = 42 := by
                                  rw [List.length_take] at hlen34
                                  omega
                                have hdroplen : (groups.drop
                                    (groups.length - 8)).length = 8 := by
                                  rw [List.length_drop]
                                  omega
                                have happ : groups.take (groups.length - 8)
                                    ++ groups.drop (groups.length - 8)
                                    = groups := List.take_append_drop _ _
                                have hver2 : verifyChecksum pre
                                    (groups.take (groups.length - 8)
                                      ++ groups.drop (groups.length - 8))
                                    = true := by rw [happ]; exact hver
                                have hcseq : groups.drop (groups.length - 8)
                                    = calculateChecksum pre
                                      (groups.take (groups.length - 8)) :=
                                  checksum_unique pre _ _ hdsub hdroplen hver2
                                have hvb : versionByte kind = v :=
                                  versionToKind_versionByte v kind hvk
                                rw [mkAddress_encode, hvb]
                                have hdata : (encodeData net' v pay2).data
                                    = addr.data := by
                                  rw [encodeData_data, hstr, hpack, ← hcseq,
                                    happ, haddr]
                                have := congrArg String.mk hdata
                                exact this
                          · rw [if_neg hl20] at h
                            simp at h

theorem map_eq_self_imp {α : Type} (f : α → α) :
    ∀ (l : List α), l.map f = l → ∀ c ∈ l, f c = c := by
  intro l
  induction l with
  | nil => intro _ c hc; simp at hc
  | cons a t ih =>
      intro h c hc
      simp only [List.map_cons, List.cons.injEq] at h
      rcases List.mem_cons.mp hc with rfl | hc
      · exact h.1
      · exact ih h.2 c hc

theorem bech32Parse_upper (l : List Char) :
    bech32Parse (l.map upperChar) = bech32Parse l
    ∨ bech32Parse l = .error .formatError := by
  by_cases hg : l = l.map lowerChar ∨ l = l.map upperChar
  · left
    have hcompu : (upperChar ∘ upperChar) = upperChar :=
      funext upperChar_upperChar
    have hcompl : (lowerChar ∘ upperChar) = lowerChar :=
      funext lowerChar_upperChar
    have hu : (l.map upperChar).map upperChar = l.map upperChar := by
      rw [List.map_map, hcompu]
    have hl : (l.map upperChar).map lowerChar = l.map lowerChar := by
      rw [List.map_map, hcompl]
    rw [bech32Parse, bech32Parse, if_pos (Or.inr hu.symm), if_pos hg, hl]
  · right
    rw [bech32Parse, if_neg hg]

/-! ### Claim theorems -/

/-- C1: decode is a loss-free inverse of encode.  For every known network,
supported address kind and payload of exactly the expected length (20
bytes), decoding the encoded text with the same expected network returns
exactly that network, kind and payload; conversely, for every
canonically-formed (all-lowercase) address text that decodes successfully,
re-encoding the decoded address (its EncodeAddress string form) yields the
original text. -/
theorem C1_roundtrip :
    (∀ (net : Bech32Net) (kind : AddressKind) (payload : List Nat),
      net ≠ .unknown → payload.length = expectedLength kind →
      (∀ b ∈ payload, b < 256) →
      DecodeAddress (mkAddress kind net payload).encodeAddress net
        = .ok (mkAddress kind net payload))
    ∧ (∀ (addr : String) (net : Bech32Net) (a : Address),
      addr.data = addr.data.map lowerChar →
      DecodeAddress addr net = .ok a →
      a.encodeAddress = addr) := by
  constructor
  · intro net kind payload hnet hlen hbytes
    rw [mkAddress_encode]
    rw [decode_encodeData net (versionByte kind) payload hnet
      (by cases kind <;> norm_num [versionByte]) hbytes]
    cases kind with
    | pubKeyHash =>
        have hlen20 : payload.length = 20 := hlen
        rw [dispatchDecoded, if_pos hlen20]
        rfl
    | scriptHash =>
        have hlen20 : payload.length = 20 := hlen
        rw [dispatchDecoded, if_pos hlen20]
        rfl
  · intro addr net a hlow h
    exact encode_decode addr net a hlow h

theorem C1_roundtrip_witness :
    DecodeAddress (mkAddress .pubKeyHash .dagCoin
        (List.replicate 20 7)).encodeAddress .dagCoin
      = .ok (mkAddress .pubKeyHash .dagCoin (List.replicate 20 7))
    ∧ (Address.pubKeyHash .dagCoin
        [0xe3, 0x4c, 0xce, 0x70, 0xc8, 0x63, 0x73, 0x27, 0x3e, 0xfc,
         0xc5, 0x4c, 0xe7, 0xd2, 0xa4, 0x91, 0xbb, 0x4a, 0x0e,
         0x84]).encodeAddress
      = "dagcoin:qr35ennsep3hxfe7lnz5ee7j5jgmkjswss74as46gy" :=
  ⟨C1_roundtrip.1 .dagCoin .pubKeyHash (List.replicate 20 7) (by decide)
      (by decide) (by decide),
   C1_roundtrip.2 ("dagcoin:qr35ennsep3hxfe7lnz5ee7j5jgmkjswss74as46gy")
      .dagCoin
      (.pubKeyHash .dagCoin
        [0xe3, 0x4c, 0xce, 0x70, 0xc8, 0x63, 0x73, 0x27, 0x3e, 0xfc,
         0xc5, 0x4c, 0xe7, 0xd2, 0xa4, 0x91, 0xbb, 0x4a, 0x0e, 0x84])
      (by decide) (by decide)⟩

/-- C2: encoding the pinned 20-byte public-key hash
0xe34cce70c86373273efcc54ce7d2a491bb4a0e84 as a PubKeyHash address for the
main network (prefix dagcoin) yields exactly the pinned text, fixing the
5-bit packing, the GF(32) polynomial checksum and the base-32 alphabet
bit-for-bit. -/
theorem C2_pinned_vector :
    (Address.pubKeyHash .dagCoin
      [0xe3, 0x4c, 0xce, 0x70, 0xc8, 0x63, 0x73, 0x27, 0x3e, 0xfc,
       0xc5, 0x4c, 0xe7, 0xd2, 0xa4, 0x91, 0xbb, 0x4a, 0x0e,
       0x84]).encodeAddress
      = "dagcoin:qr35ennsep3hxfe7lnz5ee7j5jgmkjswss74as46gy" := by
  decide

/-- C3: when the prefix of a parseable address resolves to network A and
the caller expects network B with A different from B, decode fails with
WrongNetworkError carrying its pinned message; the comparison happens
before checksum verification and before version-byte interpretation, so
the mismatch is reported even for inputs whose checksum is invalid
(the all-q text fails the checksum when the network matches) or whose
size and version byte would be rejected (the short raskzcg text). -/
theorem C3_network_check_precedes :
    (∀ (addr : String) (pre : List Char) (groups : List Nat)
        (netA netB : Bech32Net),
      bech32Parse addr.data = .ok (pre, groups) →
      ParseNet (String.mk pre) = (netA, none) →
      netA ≠ netB →
      DecodeAddress addr netB = .error .wrongNetworkError)
    ∧ AddrError.message .wrongNetworkError
        = "decoded address is of wrong network"
    ∧ DecodeAddress ("dagreg:qpm2qsznhks23z7629mms6s4cwef74vcwvtmvqeszh")
        .dagTest = .error .wrongNetworkError
    ∧ DecodeAddress ("dagreg:qqqqqqqqqqqqqqqqqqqqqqqqqqqqqqqqqqqqqqqqqq")
        .dagCoin = .error .wrongNetworkError
    ∧ DecodeAddress ("dagreg:qqqqqqqqqqqqqqqqqqqqqqqqqqqqqqqqqqqqqqqqqq")
        .dagReg = .error .checksumError
    ∧ DecodeAddress ("dagreg:raskzcg5egs6nnj") .dagTest
        = .error .wrongNetworkError := by
  refine ⟨?_, by decide, by decide, by decide, by decide, by decide⟩
  intro addr pre groups netA netB h1 h2 h3
  rw [DecodeAddress, h1]
  simp only
  rw [h2]
  simp only
  rw [if_pos h3]

theorem C3_witness :
    DecodeAddress ("dagsim:qqqqqqqqq") .dagCoin
      = .error .wrongNetworkError :=
  C3_network_check_precedes.1 ("dagsim:qqqqqqqqq") ("dagsim").data
    (List.replicate 9 0) .dagSim .dagCoin (by decide) (by decide)
    (by decide)

/-- C4: the encode-path constructors reject any raw payload whose length
is not the expected 20 bytes with the encode-time length error and produce
no address; in particular the 21-byte hashes used by the test suite are
rejected by NewAddressPubKeyHash and NewAddressScriptHashFromHash. -/
theorem C4_constructor_length :
    (∀ (hash : List Nat) (net : Bech32Net), hash.length ≠ 20 →
      NewAddressPubKeyHash hash net = .error .invalidLengthError)
    ∧ (∀ (hash : List Nat) (net : Bech32Net), hash.length ≠ 20 →
      NewAddressScriptHashFromHash hash net = .error .invalidLengthError)
    ∧ NewAddressPubKeyHash
        [0x00, 0x0e, 0xf0, 0x30, 0x10, 0x7f, 0xd2, 0x6e, 0x0b, 0x6b,
         0xf4, 0x05, 0x12, 0xbc, 0xa2, 0xce, 0xb1, 0xdd, 0x80, 0xad, 0xaa]
        .dagCoin = .error .invalidLengthError
    ∧ NewAddressScriptHashFromHash
        [0x00, 0xf8, 0x15, 0xb0, 0x36, 0xd9, 0xbb, 0xbc, 0xe5, 0xe9,
         0xf2, 0xa0, 0x0a, 0xbd, 0x1b, 0xf3, 0xdc, 0x91, 0xe9, 0x55, 0x10]
        .dagCoin = .error .invalidLengthError := by
  refine ⟨?_, ?_, by decide, by decide⟩
  · intro hash net h
    rw [NewAddressPubKeyHash, if_neg h]
  · intro hash net h
    rw [NewAddressScriptHashFromHash, if_neg h]

theorem C4_constructor_length_witness :
    NewAddressPubKeyHash (List.replicate 21 0) .dagCoin
      = .error .invalidLengthError
    ∧ NewAddressScriptHashFromHash (List.replicate 21 0) .dagCoin
      = .error .invalidLengthError :=
  ⟨C4_constructor_length.1 (List.replicate 21 0) .dagCoin (by decide),
   C4_constructor_length.2.1 (List.replicate 21 0) .dagCoin (by decide)⟩

/-- C5: for every parseable address text whose prefix string resolves to no
known network, decode fails with UnknownPrefixError carrying its pinned
message, regardless of the expected network; in particular the bitcoincash
test vector fails this way against every known network. -/
theorem C5_unresolvable_prefix_error :
    (∀ (addr : String) (pre : List Char) (groups : List Nat)
        (netB : Bech32Net),
      bech32Parse addr.data = .ok (pre, groups) →
      ParseNet (String.mk pre) = (.unknown, some .unknownPrefixError) →
      DecodeAddress addr netB = .error .unknownPrefixError)
    ∧ AddrError.message .unknownPrefixError
        = "decoded address\x27s prefix could not be parsed"
    ∧ (∀ netB : Bech32Net,
      DecodeAddress ("bitcoincash:qpzry9x8gf2tvdw0s3jn54khce6mua7lcw20ayyn")
        netB = .error .unknownPrefixError) := by
  refine ⟨?_, by decide, ?_⟩
  · intro addr pre groups netB h1 h2
    rw [DecodeAddress, h1]
    simp only
    rw [h2]
  · intro netB
    cases netB <;> decide

theorem C5_witness :
    DecodeAddress ("blabla:qqqqqqqqq") .dagCoin
      = .error .unknownPrefixError :=
  C5_unresolvable_prefix_error.1 ("blabla:qqqqqqqqq") ("blabla").data
    (List.replicate 9 0) .dagCoin (by decide) (by decide)

/-- C6 counterexample: the short regtest vector decodes (after checksum and
unpacking) to version byte 31 with a 3-byte remaining payload.  Version 31
matches no known address kind, so the claim as stated predicts
UnknownAddressTypeError, but decode reports WrongSizeError: the payload
size check runs before the version-byte dispatch. -/
theorem C6_counterexample :
    DecodeAddress ("dagreg:raskzcg5egs6nnj") .dagReg = .error .wrongSizeError
    ∧ bech32Parse ("dagreg:raskzcg5egs6nnj").data
        = .ok ("dagreg".data,
            [3, 29, 16, 22, 2, 24, 8, 20, 25, 8, 16, 26, 19, 19, 18])
    ∧ unpack5to8 [3, 29, 16, 22, 2, 24, 8] = some [31, 97, 97, 97]
    ∧ versionToKind 31 = none := by
  decide

/-- C6 (amended): after checksum verification and unpacking, decode first
validates the remaining payload length against the expected 20 bytes and
fails with WrongSizeError (message: decoded address is of unknown size) on
any mismatch, regardless of the version byte; only when the length matches
does it dispatch on the leading version byte, failing with
UnknownAddressTypeError (message: unknown address type) when no kind
matches.  In particular the long regtest vector fails with the latter and
the short one with the former. -/
theorem C6_size_then_dispatch :
    (∀ (net : Bech32Net) (v : Nat) (payload : List Nat),
      payload.length ≠ 20 →
      dispatchDecoded net (v :: payload) = .error .wrongSizeError)
    ∧ (∀ (net : Bech32Net) (v : Nat) (payload : List Nat),
      payload.length = 20 → versionToKind v = none →
      dispatchDecoded net (v :: payload)
        = .error .unknownAddressTypeError)
    ∧ AddrError.message .unknownAddressTypeError = "unknown address type"
    ∧ AddrError.message .wrongSizeError
        = "decoded address is of unknown size"
    ∧ DecodeAddress ("dagreg:raskzctpv9skzctpv9skzctpv9skzctpvyd070wnqg")
        .dagReg = .error .unknownAddressTypeError
    ∧ DecodeAddress ("dagreg:raskzcg5egs6nnj") .dagReg
        = .error .wrongSizeError := by
  refine ⟨?_, ?_, by decide, by decide, by decide, by decide⟩
  · intro net v payload h
    rw [dispatchDecoded, if_neg h]
  · intro net v payload h1 h2
    rw [dispatchDecoded, if_pos h1, h2]

theorem C6_size_then_dispatch_witness :
    dispatchDecoded .dagReg (31 :: List.replicate 3 97)
      = .error .wrongSizeError
    ∧ dispatchDecoded .dagReg (31 :: List.replicate 20 0)
      = .error .unknownAddressTypeError :=
  ⟨C6_size_then_dispatch.1 .dagReg 31 (List.replicate 3 97) (by decide),
   C6_size_then_dispatch.2.1 .dagReg 31 (List.replicate 20 0) (by decide)
     (by decide)⟩

/-- C7: decoding a valid address text with all letters uppercased yields a
result identical to decoding the original, and decoding any text that
contains both an uppercase and a lowercase letter fails with FormatError. -/
theorem C7_case_invariance :
    (∀ (addr : String) (net : Bech32Net) (a : Address),
      DecodeAddress addr net = .ok a →
      DecodeAddress (toUpperStr addr) net = .ok a)
    ∧ (∀ (addr : String) (net : Bech32Net),
      (∃ c ∈ addr.data, isUpperLetter c = true) →
      (∃ c ∈ addr.data, isLowerLetter c = true) →
      DecodeAddress addr net = .error .formatError) := by
  constructor
  · intro addr net a h
    rw [DecodeAddress] at h ⊢
    rw [show (toUpperStr addr).data = addr.data.map upperChar from rfl]
    rcases bech32Parse_upper addr.data with hcase | hcase
    · rw [hcase]
      exact h
    · rw [hcase] at h
      simp at h
  · intro addr net hup hlo
    obtain ⟨cu, hcu, hcuU⟩ := hup
    obtain ⟨cl, hcl, hclL⟩ := hlo
    have hguard : ¬(addr.data = addr.data.map lowerChar
        ∨ addr.data = addr.data.map upperChar) := by
      intro hg
      rcases hg with hg | hg
      · exact lowerChar_ne_of_upper cu hcuU
          (map_eq_self_imp lowerChar addr.data hg.symm cu hcu)
      · exact upperChar_ne_of_lower cl hclL
          (map_eq_self_imp upperChar addr.data hg.symm cl hcl)
    rw [DecodeAddress, bech32Parse, if_neg hguard]

theorem C7_case_invariance_witness :
    DecodeAddress
        (toUpperStr ("dagcoin:qr35ennsep3hxfe7lnz5ee7j5jgmkjswss74as46gy"))
        .dagCoin
      = .ok (.pubKeyHash .dagCoin
          [0xe3, 0x4c, 0xce, 0x70, 0xc8, 0x63, 0x73, 0x27, 0x3e, 0xfc,
           0xc5, 0x4c, 0xe7, 0xd2, 0xa4, 0x91, 0xbb, 0x4a, 0x0e, 0x84])
    ∧ DecodeAddress ("dagcoin:Qr35ennsep3hxfe7lnz5ee7j5jgmkjswss74as46gy")
        .dagCoin = .error .formatError :=
  ⟨C7_case_invariance.1
      ("dagcoin:qr35ennsep3hxfe7lnz5ee7j5jgmkjswss74as46gy") .dagCoin
      (.pubKeyHash .dagCoin
        [0xe3, 0x4c, 0xce, 0x70, 0xc8, 0x63, 0x73, 0x27, 0x3e, 0xfc,
         0xc5, 0x4c, 0xe7, 0xd2, 0xa4, 0x91, 0xbb, 0x4a, 0x0e, 0x84])
      (by decide),
   C7_case_invariance.2
      ("dagcoin:Qr35ennsep3hxfe7lnz5ee7j5jgmkjswss74as46gy") .dagCoin
      ⟨'Q', by decide, by decide⟩ ⟨'r', by decide, by decide⟩⟩

/-- C8: the network-prefix registry is a bidirectional mapping on the four
known networks: parsing each canonical lowercase string returns the
corresponding network without error, the string form of each known network
is that same string, and the string form of the Unknown variant is the
empty string. -/
theorem C8_registry_bijection :
    ParseNet ("dagcoin") = (.dagCoin, none)
    ∧ ParseNet ("dagreg") = (.dagReg, none)
    ∧ ParseNet ("dagtest") = (.dagTest, none)
    ∧ ParseNet ("dagsim") = (.dagSim, none)
    ∧ Bech32Net.toStr .dagCoin = "dagcoin"
    ∧ Bech32Net.toStr .dagReg = "dagreg"
    ∧ Bech32Net.toStr .dagTest = "dagtest"
    ∧ Bech32Net.toStr .dagSim = "dagsim"
    ∧ Bech32Net.toStr .unknown = "" := by
  decide

/-- C9: OnHeaders hands exactly the received headers message, unmodified,
together with the receiving peer, to the sync manager QueueHeaders: the
resulting sync-manager state is the previous queue with exactly one new
call appended, carrying the original message and the receiving peer, and
nothing else changes. -/
theorem C9_on_headers_forwards :
    ∀ (sp : Peer) (msg : MsgHeaders),
      sp.OnHeaders msg
        = ⟨sp.server.syncManager.queued ++ [⟨msg, sp.peer⟩]⟩ := by
  intro sp msg
  rfl

/-- C10: ParsePrefix fails, returning the Unknown prefix value together
with a non-nil error, for the empty string and for the literal string
"unknown"; the Unknown sentinel is therefore unreachable by parsing, and
the resolve round-trip fails for Unknown, whose canonical string (the
empty string) does not resolve back to it. -/
theorem C10_unknown_unreachable :
    ParseNet ("") = (.unknown, some .unknownPrefixError)
    ∧ ParseNet ("unknown") = (.unknown, some .unknownPrefixError)
    ∧ Bech32Net.toStr .unknown = ""
    ∧ ParseNet (Bech32Net.toStr .unknown)
        = (.unknown, some .unknownPrefixError) := by
  decide

end KaspadAddr
